import Mathlib

/-!
Verification development for the elliptical-Gaussian fitting core
(`lm_testing.py`): model evaluation, multi-component model construction,
angle canonicalization, eigendecomposition-based whitening, analytic and
empirical Jacobians, and the masked-data fit drivers.

Real-valued quantities of the program are embedded as `ℝ`; the external
numerical routines (`scipy.linalg.eigh`, `lmfit.minimize`,
`AegeanTools.mpfit`) are abstracted as function parameters, with the part
of their contract that the source relies on stated as hypotheses of the
theorems.  A data value of `none` plays the role of NaN (a masked sample).
-/

open Matrix

/-- The 2d elliptical Gaussian model
`amp * exp(-1/2 * ((u cosθ + v sinθ)²/sx² + (u sinθ - v cosθ)²/sy²))`
with `u = x - xo`, `v = y - yo`, as evaluated by `elliptical_gaussian`. -/
noncomputable def elliptical_gaussian (x y amp xo yo sx sy theta : ℝ) : ℝ :=
  let sint := Real.sin theta
  let cost := Real.cos theta
  let xxo := x - xo
  let yyo := y - yo
  let e := ((xxo * cost + yyo * sint) ^ 2 / sx ^ 2
      + (xxo * sint - yyo * cost) ^ 2 / sy ^ 2) * (-(1 / 2) : ℝ)
  amp * Real.exp e

/-- The 1d Gaussian model `amp * exp(-0.5 ((x-cen)/sigma)²)` (`gaussian`). -/
noncomputable def gaussian (x amp cen sigma : ℝ) : ℝ :=
  amp * Real.exp (-(1 / 2) * ((x - cen) / sigma) ^ 2)

/-- Degrees to radians, `np.radians`. -/
noncomputable def radians (deg : ℝ) : ℝ := deg * Real.pi / 180

/-- First loop of `theta_limit`: `while theta <= -pi/2: theta += pi`. -/
noncomputable def theta_limit_up (theta : ℝ) : ℝ :=
  if theta ≤ -(Real.pi / 2) then theta_limit_up (theta + Real.pi) else theta
termination_by Nat.ceil ((-(Real.pi / 2) - theta) / Real.pi + 1)
decreasing_by
  have hpi : (0:ℝ) < Real.pi := Real.pi_pos
  have ht : (0:ℝ) ≤ (-(Real.pi / 2) - theta) / Real.pi := by
    apply div_nonneg _ hpi.le
    linarith
  have harg : (-(Real.pi / 2) - (theta + Real.pi)) / Real.pi + 1
      = (-(Real.pi / 2) - theta) / Real.pi := by
    field_simp
    ring
  rw [harg]
  calc Nat.ceil ((-(Real.pi / 2) - theta) / Real.pi)
      < Nat.ceil ((-(Real.pi / 2) - theta) / Real.pi) + 1 := Nat.lt_succ_self _
    _ = Nat.ceil ((-(Real.pi / 2) - theta) / Real.pi + 1) := by
        rw [Nat.ceil_add_one ht]

/-- Second loop of `theta_limit`: `while theta > pi/2: theta -= pi`. -/
noncomputable def theta_limit_down (theta : ℝ) : ℝ :=
  if Real.pi / 2 < theta then theta_limit_down (theta - Real.pi) else theta
termination_by Nat.ceil ((theta - Real.pi / 2) / Real.pi + 1)
decreasing_by
  have hpi : (0:ℝ) < Real.pi := Real.pi_pos
  have ht : (0:ℝ) ≤ (theta - Real.pi / 2) / Real.pi := by
    apply div_nonneg _ hpi.le
    linarith
  have harg : (theta - Real.pi - Real.pi / 2) / Real.pi + 1
      = (theta - Real.pi / 2) / Real.pi := by
    field_simp
    ring
  rw [harg]
  calc Nat.ceil ((theta - Real.pi / 2) / Real.pi)
      < Nat.ceil ((theta - Real.pi / 2) / Real.pi) + 1 := Nat.lt_succ_self _
    _ = Nat.ceil ((theta - Real.pi / 2) / Real.pi + 1) := by
        rw [Nat.ceil_add_one ht]

/-- `theta_limit`: constrain a position angle to `(-pi/2, pi/2]` by repeatedly
adding, then repeatedly subtracting, `pi`. -/
noncomputable def theta_limit (theta : ℝ) : ℝ :=
  theta_limit_down (theta_limit_up theta)

/-- A real `mu` is an eigenvalue of the square matrix `C`: some nonzero
vector `v` satisfies `C v = mu v`. -/
def isEigenvalueOf {n : ℕ} (C : Matrix (Fin n) (Fin n) ℝ) (mu : ℝ) : Prop :=
  ∃ v : Fin n → ℝ, v ≠ 0 ∧ C.mulVec v = mu • v

/-- `Bmatrix(C)`: eigendecompose `C` with the external routine `eigh` into
eigenvalues `L` and eigenvectors `Q`; if `not all(L>0)` abort
(`sys.exit(1)`, modelled as `none`); otherwise return
`B = Q.dot(np.diag(1/np.sqrt(L)))`. -/
noncomputable def Bmatrix {n : ℕ}
    (eigh : Matrix (Fin n) (Fin n) ℝ → (Fin n → ℝ) × Matrix (Fin n) (Fin n) ℝ)
    (C : Matrix (Fin n) (Fin n) ℝ) : Option (Matrix (Fin n) (Fin n) ℝ) :=
  if ∀ i, 0 < (eigh C).1 i then
    some ((eigh C).2 * Matrix.diagonal fun i => 1 / Real.sqrt ((eigh C).1 i))
  else none

/-- Concrete `eigh` oracle for the 1×1 matrix `[[-1]]`. -/
def eighNeg : Matrix (Fin 1) (Fin 1) ℝ → (Fin 1 → ℝ) × Matrix (Fin 1) (Fin 1) ℝ :=
  fun _ => (fun _ => -1, 1)

/-- Concrete `eigh` oracle for the 1×1 identity matrix. -/
def eighOne : Matrix (Fin 1) (Fin 1) ℝ → (Fin 1 → ℝ) × Matrix (Fin 1) (Fin 1) ℝ :=
  fun _ => (fun _ => 1, 1)

/-- The finite-difference step `eps = 1e-5` used by the empirical mode of
`jacobian2d`. -/
noncomputable def fdEps : ℝ := 1e-5

/-- One row (one sample `x`) of the 1d analytic Jacobian `jacobian`:
columns `(dmds, dmdcen, dmdsigma)` with `dmds = model/amp`. -/
noncomputable def jacobianRow (amp cen sigma x : ℝ) : Fin 3 → ℝ :=
  let model := gaussian x amp cen sigma
  ![model / amp,
    model / sigma ^ 2 * (x - cen),
    model * (x - cen) ^ 2 / sigma ^ 3]

/-- `jacobian(pars, x)`: the (numSamples × 3) analytic Jacobian of the 1d
Gaussian, one row per sample (`np.vstack` of the three derivative columns
followed by `np.transpose`). -/
noncomputable def jacobian (amp cen sigma : ℝ) (xs : List ℝ) : List (Fin 3 → ℝ) :=
  xs.map (jacobianRow amp cen sigma)

/-- One row (one sample `(x,y)`) of `jacobian2d`.  `emp = true` is the
empirical finite-difference mode with step `fdEps`; `emp = false` is the
analytic mode, transcribed from the source as written — including its
`yyo = x - yo` (the y-offset intermediate computed from x-coordinates). -/
noncomputable def jacobian2dRow (amp xo yo sx sy theta : ℝ) (emp : Bool)
    (x y : ℝ) : Fin 6 → ℝ :=
  let model := elliptical_gaussian x y amp xo yo sx sy theta
  if emp then
    ![(elliptical_gaussian x y (amp + fdEps) xo yo sx sy theta - model) / fdEps,
      (elliptical_gaussian x y amp (xo + fdEps) yo sx sy theta - model) / fdEps,
      (elliptical_gaussian x y amp xo (yo + fdEps) sx sy theta - model) / fdEps,
      (elliptical_gaussian x y amp xo yo (sx + fdEps) sy theta - model) / fdEps,
      (elliptical_gaussian x y amp xo yo sx (sy + fdEps) theta - model) / fdEps,
      (elliptical_gaussian x y amp xo yo sx sy (theta + fdEps) - model) / fdEps]
  else
    let sint := Real.sin theta
    let cost := Real.cos theta
    let xxo := x - xo
    let yyo := x - yo
    let xcos := cost * xxo
    let ycos := cost * yyo
    let xsin := sint * xxo
    let ysin := sint * yyo
    ![model / amp,
      (cost * (xcos + ysin) / sx ^ 2 + sint * (xsin - ycos) / sy ^ 2) * model,
      (sint * (xcos + ysin) / sx ^ 2 - cost * (xsin - ycos) / sy ^ 2) * model,
      model / sx ^ 3 * (xcos + ysin) ^ 2,
      model / sy ^ 3 * (xsin - ycos) ^ 2,
      model * (sx ^ 2 - sy ^ 2) * (xsin + ycos) * (xcos + ysin) / sx ^ 2 / sy ^ 2]

/-- `jacobian2d(pars, xy, emp, errs)`: the (numSamples × 6) Jacobian in
canonical column order (amp, xo, yo, sx, sy, theta), one row per sample;
in the empirical mode an optional per-sample error estimate divides each
row before the transpose. -/
noncomputable def jacobian2d (amp xo yo sx sy theta : ℝ) (xs ys : List ℝ)
    (emp : Bool) (errs : Option (List ℝ)) : List (Fin 6 → ℝ) :=
  let rows := List.zipWith (jacobian2dRow amp xo yo sx sy theta emp) xs ys
  if emp then
    match errs with
    | none => rows
    | some es => List.zipWith (fun r e => fun i => r i / e) rows es
  else rows

/-- The error raised by `ntwodgaussian_mpfit` when the flat parameter
sequence cannot be reshaped into rows of 6 (a `ValueError` in the source;
the specification names it `ParameterCountError`). -/
inductive ModelError : Type where
  | parameterCountError : ModelError
deriving DecidableEq

/-- `np.array(inpars).reshape(len(inpars)/6, 6)` (Python-2 floor
division): the list of 6-parameter component rows
`(amp, x0, y0, major, minor, pa)`. -/
def chunks6 : List ℝ → List (ℝ × ℝ × ℝ × ℝ × ℝ × ℝ)
  | a :: b :: c :: d :: e :: f :: rest => (a, b, c, d, e, f) :: chunks6 rest
  | _ => []

/-- One component of the multi-Gaussian model:
`elliptical_gaussian(x, y, amp, xo, yo, major, minor, np.radians(pa))`. -/
noncomputable def compEval (p : ℝ × ℝ × ℝ × ℝ × ℝ × ℝ) (x y : ℝ) : ℝ :=
  elliptical_gaussian x y p.1 p.2.1 p.2.2.1 p.2.2.2.1 p.2.2.2.2.1
    (radians p.2.2.2.2.2)

/-- The elementwise sum of the N component elliptical Gaussians described
by a flat parameter sequence — the specification's reading of
`multiGaussian`, used as the reference for the refinement comparison. -/
noncomputable def multiGaussSum (inpars : List ℝ) (x y : ℝ) : ℝ :=
  ((chunks6 inpars).map (fun p => compEval p x y)).sum

/-- `ntwodgaussian_mpfit(inpars)`: reshape the flat sequence into rows of
6 — raising when the length is not a multiple of 6 — and return `rfunc`,
which folds over the components accumulating `result` (initially `None`,
so with zero components the returned function yields `None`, not an
array of zeros). -/
noncomputable def ntwodgaussian_mpfit (inpars : List ℝ) :
    Except ModelError (List ℝ → List ℝ → Option (List ℝ)) :=
  if inpars.length % 6 = 0 then
    Except.ok (fun x y =>
      (chunks6 inpars).foldl
        (fun result p =>
          match result with
          | some r => some (List.zipWith (fun a b => a + b) r
              (List.zipWith (compEval p) x y))
          | none => some (List.zipWith (compEval p) x y))
        none)
  else Except.error ModelError.parameterCountError

/-- One entry of an `mpfit` `parinfo` list: a parameter descriptor with a
value, a fixed flag, a name, limits and limited flags. -/
structure ParInfo where
  value : ℝ
  fixed : Bool
  parname : String
  limits : ℝ × ℝ
  limited : Bool × Bool

/-- Indices `(row, column)` of the finite (non-NaN) entries of a 2d data
grid, row-major. -/
def finiteIndices2d (data : List (List (Option ℝ))) : List (ℕ × ℕ) :=
  (data.enum.map (fun rc =>
    rc.2.enum.filterMap (fun cc =>
      match cc.2 with
      | some _ => some (rc.1, cc.1)
      | none => none))).flatten

/-- `np.where(np.isfinite(data))` for a 2d grid: the pair (array of row
indices, array of column indices) of the finite entries. -/
def mask2d (data : List (List (Option ℝ))) : List ℕ × List ℕ :=
  ((finiteIndices2d data).map Prod.fst, (finiteIndices2d data).map Prod.snd)

/-- `np.ravel` of the index tuple returned by `np.where`: the
concatenation of its per-axis index arrays (so for 2d data its length is
twice the finite-sample count). -/
def ravelMask (mask : List ℕ × List ℕ) : List ℕ := mask.1 ++ mask.2

/-- The data values at the masked (finite) positions, `data[mask]`. -/
def maskedVals2d (data : List (List (Option ℝ))) : List ℝ :=
  (data.map (fun row => row.filterMap id)).flatten

/-- Number of finite (unmasked) samples of a 2d observation. -/
def finiteCount2d (data : List (List (Option ℝ))) : ℕ :=
  (finiteIndices2d data).length

/-- Row-vector–matrix product `v.dot(B)`, used for whitened residuals. -/
def vecMatMul (v : List ℝ) (M : List (List ℝ)) : List ℝ :=
  match M with
  | [] => []
  | r0 :: _ => (List.range r0.length).map fun j =>
      (List.zipWith (fun vi row => vi * row.getD j 0) v M).sum

/-- The `do_mpfit` residual callback `erfunc(p)`: evaluates the
multi-Gaussian model at the masked coordinates (`f(*mask)`) and returns
`model - data[mask]`, dotted with `B` when a whitening matrix is supplied.
The leading status `0` of the Python return value is omitted; a
`ParameterCountError` raised by `ntwodgaussian_mpfit` propagates, and the
`None` model of a zero-component fold (a `TypeError` in Python) is
flattened to `[]`. -/
noncomputable def erfunc (B : Option (List (List ℝ)))
    (data : List (List (Option ℝ))) (p : List ℝ) : Except ModelError (List ℝ) :=
  (ntwodgaussian_mpfit p).map fun f =>
    let mask := mask2d data
    let model := (f (mask.1.map (fun i => (i : ℝ)))
        (mask.2.map (fun j => (j : ℝ)))).getD []
    let diff := List.zipWith (fun a b => a - b) model (maskedVals2d data)
    match B with
    | none => diff
    | some Bm => vecMatMul diff Bm

/-- Modelled from the spec: the external flat-vector bounded least-squares
solver `AegeanTools.mpfit` (part of the Aegean repository but not under
`src/`).  Per the specification's external-interface contract it consumes
the residual callback and the parameter descriptors, iterates to
convergence and returns a result object carrying the converged values and
per-parameter standard errors alongside; it does not modify the
caller-visible parameter descriptors, so the `parinfo` passed in emerges
unchanged (second component).  The solver engine itself is abstracted as
`engine`. -/
def mpfit {R : Type} (engine : (List ℝ → Except ModelError (List ℝ)) → List ParInfo → R)
    (erf : List ℝ → Except ModelError (List ℝ)) (parinfo : List ParInfo) :
    R × List ParInfo :=
  (engine erf parinfo, parinfo)

/-- `do_mpfit(data, parinfo, B)`: compute the finite mask, build the
residual callback, run `mpfit` on it with `parinfo`, attach
`mp.dof = len(np.ravel(mask)) - len(parinfo)` to the result, and return
`(mp, parinfo)`.  The first component models the `mp` object: the solver
result together with its `dof` attribute. -/
noncomputable def do_mpfit {R : Type}
    (engine : (List ℝ → Except ModelError (List ℝ)) → List ParInfo → R)
    (data : List (List (Option ℝ))) (parinfo : List ParInfo)
    (B : Option (List (List ℝ))) : (R × ℤ) × List ParInfo :=
  let mp := mpfit engine (erfunc B data) parinfo
  ((mp.1, ((ravelMask (mask2d data)).length : ℤ) - parinfo.length), mp.2)

/-- One named `lmfit` parameter: a value, optional bounds, and a
free/fixed (vary) flag. -/
structure Param where
  value : ℝ
  vmin : Option ℝ
  vmax : Option ℝ
  vary : Bool

/-- The three named parameters of the 1d Gaussian model. -/
structure Params1 where
  amp : Param
  cen : Param
  sigma : Param

/-- Number of free (varying) parameters of a 1d parameter set. -/
def freeCount1 (p : Params1) : ℕ :=
  (if p.amp.vary then 1 else 0) + (if p.cen.vary then 1 else 0)
    + (if p.sigma.vary then 1 else 0)

/-- Finite-sample indices of a 1d observation
(`np.where(np.isfinite(data))[0]`). -/
def finiteIdx1 (data : List (Option ℝ)) : List ℕ :=
  data.enum.filterMap fun ic =>
    match ic.2 with
    | some _ => some ic.1
    | none => none

/-- The finite data values of a 1d observation, `data[mask]`. -/
def maskedVals1 (data : List (Option ℝ)) : List ℝ := data.filterMap id

/-- Number of finite (unmasked) samples of a 1d observation. -/
def finiteCount1 (data : List (Option ℝ)) : ℕ := (finiteIdx1 data).length

/-- The residual closure of `do_lmfit` for `D = 1`: the model is the 1d
Gaussian evaluated at the masked index positions, the masked data is
subtracted, and when a whitening matrix `B` is supplied the difference is
right-multiplied by it (`(model - data[mask]).dot(B)`). -/
noncomputable def residual1 (B : Option (List (List ℝ))) (data : List (Option ℝ))
    (p : Params1) : List ℝ :=
  let mask := finiteIdx1 data
  let model := mask.map fun i =>
    gaussian (i : ℝ) p.amp.value p.cen.value p.sigma.value
  let diff := List.zipWith (fun a b => a - b) model (maskedVals1 data)
  match B with
  | none => diff
  | some Bm => vecMatMul diff Bm

/-- What `do_lmfit` hands back, together with the state of the caller's
parameter object after the call: `result` and `params` are the two
components of the Python return value (`params` being the deep copy the
solver worked on); `callerParams` is the object the caller passed in,
which `do_lmfit` deep-copies away from (`copy.deepcopy`) before any
mutation can occur. -/
structure LmOutcome (R : Type) where
  result : R
  params : Params1
  callerParams : Params1

/-- `do_lmfit(data, params, B, D=1, dojac=False)` on 1d data: deep-copy
`params`, compute the finite mask, build the (optionally whitened)
residual closure, hand it with the copy to the external solver
`lmfit.minimize` — abstracted as `minimize`, which returns the final
state of the (mutable) parameter object handed to it together with its
result — and return the result and the copy.  (The `dojac` branch of the
source only forwards a derivative callback `Dfun` to the same solver
call.) -/
noncomputable def do_lmfit {R : Type}
    (minimize : (Params1 → List ℝ) → Params1 → Params1 × R)
    (data : List (Option ℝ)) (params : Params1)
    (B : Option (List (List ℝ))) : LmOutcome R :=
  let copy := params
  let fitted := minimize (residual1 B data) copy
  ⟨fitted.2, fitted.1, params⟩

/-- A free (varying), unbounded parameter with value 1. -/
def defaultParam : Param := ⟨1, none, none, true⟩

/-- A 1d parameter set with all three parameters free. -/
def paramsAllFree : Params1 := ⟨defaultParam, defaultParam, defaultParam⟩

/-- A concrete six-entry `parinfo` (component amp, xo, yo, major, minor,
pa) whose last parameter is fixed. -/
def parinfo6 : List ParInfo :=
  [⟨1, false, "amp", (0, 2), (false, false)⟩,
   ⟨1.2, false, "xo", (0, 0), (false, false)⟩,
   ⟨1, false, "yo", (0, 0), (false, false)⟩,
   ⟨2, false, "major", (1, 4), (true, true)⟩,
   ⟨1, false, "minor", (0.5, 3), (true, true)⟩,
   ⟨0, true, "pa", (-180, 180), (false, false)⟩]

theorem theta_limit_up_gt (theta : ℝ) : -(Real.pi / 2) < theta_limit_up theta := by
  induction theta using theta_limit_up.induct with
  | case1 theta h ih =>
    rw [theta_limit_up, if_pos h]
    exact ih
  | case2 theta h =>
    rw [theta_limit_up, if_neg h]
    exact lt_of_not_le h

theorem theta_limit_down_le (theta : ℝ) : theta_limit_down theta ≤ Real.pi / 2 := by
  induction theta using theta_limit_down.induct with
  | case1 theta h ih =>
    rw [theta_limit_down, if_pos h]
    exact ih
  | case2 theta h =>
    rw [theta_limit_down, if_neg h]
    exact le_of_not_lt h

theorem theta_limit_down_gt (theta : ℝ) (h0 : -(Real.pi / 2) < theta) :
    -(Real.pi / 2) < theta_limit_down theta := by
  induction theta using theta_limit_down.induct with
  | case1 theta h ih =>
    rw [theta_limit_down, if_pos h]
    apply ih
    have hpi : (0:ℝ) < Real.pi := Real.pi_pos
    linarith
  | case2 theta h =>
    rw [theta_limit_down, if_neg h]
    exact h0

theorem theta_limit_up_sub (theta : ℝ) :
    ∃ k : ℤ, theta_limit_up theta = theta + k * Real.pi := by
  induction theta using theta_limit_up.induct with
  | case1 theta h ih =>
    obtain ⟨k, hk⟩ := ih
    refine ⟨k + 1, ?_⟩
    rw [theta_limit_up, if_pos h, hk]
    push_cast
    ring
  | case2 theta h =>
    refine ⟨0, ?_⟩
    rw [theta_limit_up, if_neg h]
    push_cast
    ring

theorem theta_limit_down_sub (theta : ℝ) :
    ∃ k : ℤ, theta_limit_down theta = theta + k * Real.pi := by
  induction theta using theta_limit_down.induct with
  | case1 theta h ih =>
    obtain ⟨k, hk⟩ := ih
    refine ⟨k - 1, ?_⟩
    rw [theta_limit_down, if_pos h, hk]
    push_cast
    ring
  | case2 theta h =>
    refine ⟨0, ?_⟩
    rw [theta_limit_down, if_neg h]
    push_cast
    ring

theorem theta_limit_mem (theta : ℝ) :
    -(Real.pi / 2) < theta_limit theta ∧ theta_limit theta ≤ Real.pi / 2 :=
  ⟨theta_limit_down_gt _ (theta_limit_up_gt theta), theta_limit_down_le _⟩

theorem theta_limit_sub (theta : ℝ) :
    ∃ k : ℤ, theta_limit theta = theta + k * Real.pi := by
  obtain ⟨k1, hk1⟩ := theta_limit_up_sub theta
  obtain ⟨k2, hk2⟩ := theta_limit_down_sub (theta_limit_up theta)
  refine ⟨k1 + k2, ?_⟩
  rw [theta_limit, hk2, hk1]
  push_cast
  ring

theorem interval_unique (a b : ℝ) (k : ℤ)
    (ha1 : -(Real.pi / 2) < a) (ha2 : a ≤ Real.pi / 2)
    (hb1 : -(Real.pi / 2) < b) (hb2 : b ≤ Real.pi / 2)
    (hab : a = b + k * Real.pi) : a = b := by
  have hpi : (0:ℝ) < Real.pi := Real.pi_pos
  have h1 : (k : ℝ) * Real.pi < Real.pi := by linarith
  have h2 : -Real.pi < (k : ℝ) * Real.pi := by linarith
  have hk1 : (k : ℝ) < 1 := by
    by_contra hc
    push_neg at hc
    have : (1:ℝ) * Real.pi ≤ (k : ℝ) * Real.pi :=
      mul_le_mul_of_nonneg_right hc hpi.le
    linarith
  have hk2 : (-1 : ℝ) < (k : ℝ) := by
    by_contra hc
    push_neg at hc
    have : (k : ℝ) * Real.pi ≤ (-1 : ℝ) * Real.pi :=
      mul_le_mul_of_nonneg_right hc hpi.le
    linarith
  have hk0 : k = 0 := by
    have h1' : k < 1 := by exact_mod_cast hk1
    have h2' : -1 < k := by exact_mod_cast hk2
    omega
  rw [hab, hk0]
  push_cast
  ring

/-- C8: for every real angle theta, `theta_limit theta` terminates (it is a
total function defined by well-founded recursion) with a value in the
half-open interval `(-pi/2, pi/2]`, and `theta_limit (theta + pi) =
theta_limit theta`. -/
theorem theta_limit_spec (theta : ℝ) :
    (-(Real.pi / 2) < theta_limit theta ∧ theta_limit theta ≤ Real.pi / 2)
    ∧ theta_limit (theta + Real.pi) = theta_limit theta := by
  refine ⟨theta_limit_mem theta, ?_⟩
  obtain ⟨k1, hk1⟩ := theta_limit_sub (theta + Real.pi)
  obtain ⟨k2, hk2⟩ := theta_limit_sub theta
  obtain ⟨ha1, ha2⟩ := theta_limit_mem (theta + Real.pi)
  obtain ⟨hb1, hb2⟩ := theta_limit_mem theta
  refine interval_unique _ _ (k1 + 1 - k2) ha1 ha2 hb1 hb2 ?_
  rw [hk1, hk2]
  push_cast
  ring

/-- C7: axis canonicalization does not change the evaluated model: swapping
`sx` and `sy` while rotating by `pi/2` leaves `elliptical_gaussian`
pointwise unchanged (here an exact identity of real numbers, which
subsumes the floating-point-tolerance statement). -/
theorem elliptical_gaussian_swap (x y amp xo yo sx sy theta : ℝ)
    (hsx : 0 < sx) (hsy : 0 < sy) :
    elliptical_gaussian x y amp xo yo sx sy theta
      = elliptical_gaussian x y amp xo yo sy sx (theta + Real.pi / 2) := by
  unfold elliptical_gaussian
  have hs : Real.sin (theta + Real.pi / 2) = Real.cos theta := Real.sin_add_pi_div_two theta
  have hc : Real.cos (theta + Real.pi / 2) = -Real.sin theta := Real.cos_add_pi_div_two theta
  rw [hs, hc]
  ring

/-- C7 witness: the swap identity at the concrete point
`x=1, y=2, amp=3, xo=0, yo=1, sx=2, sy=1, theta=0`. -/
theorem elliptical_gaussian_swap_witness :
    elliptical_gaussian 1 2 3 0 1 2 1 0
      = elliptical_gaussian 1 2 3 0 1 1 2 (0 + Real.pi / 2) :=
  elliptical_gaussian_swap 1 2 3 0 1 2 1 0 (by norm_num) (by norm_num)

theorem orth_mul_right {n : ℕ} (L : Fin n → ℝ) (Q : Matrix (Fin n) (Fin n) ℝ)
    (C : Matrix (Fin n) (Fin n) ℝ) (horth : Qᵀ * Q = 1)
    (hC : C = Q * Matrix.diagonal L * Qᵀ) :
    C * Q = Q * Matrix.diagonal L := by
  rw [hC, Matrix.mul_assoc (Q * Matrix.diagonal L) Qᵀ Q, horth, Matrix.mul_one]

theorem eigh_column_eigen {n : ℕ} (C : Matrix (Fin n) (Fin n) ℝ)
    (L : Fin n → ℝ) (Q : Matrix (Fin n) (Fin n) ℝ) (horth : Qᵀ * Q = 1)
    (hC : C = Q * Matrix.diagonal L * Qᵀ) (i : Fin n) :
    isEigenvalueOf C (L i) := by
  refine ⟨fun j => Q j i, ?_, ?_⟩
  · intro hv
    have h1 : (Qᵀ * Q) i i = (1 : Matrix (Fin n) (Fin n) ℝ) i i := by rw [horth]
    rw [Matrix.mul_apply] at h1
    have hz : ∀ j, Q j i = 0 := fun j => congrFun hv j
    simp [Matrix.transpose_apply, Matrix.one_apply, hz] at h1
  · funext j
    have h1 : C.mulVec (fun k => Q k i) j = (C * Q) j i := by
      simp [Matrix.mulVec, dotProduct, Matrix.mul_apply]
    have h2 : (L i • fun k => Q k i) j = L i * Q j i := rfl
    rw [h2, h1, orth_mul_right L Q C horth hC, Matrix.mul_diagonal]
    ring

theorem eigenvalue_mem {n : ℕ} (C : Matrix (Fin n) (Fin n) ℝ)
    (L : Fin n → ℝ) (Q : Matrix (Fin n) (Fin n) ℝ) (horth : Qᵀ * Q = 1)
    (hC : C = Q * Matrix.diagonal L * Qᵀ) (mu : ℝ)
    (h : isEigenvalueOf C mu) : ∃ i, L i = mu := by
  obtain ⟨v, hv0, hCv⟩ := h
  have hQQt : Q * Qᵀ = 1 := Matrix.mul_eq_one_comm.mp horth
  have hQw : Q.mulVec (Qᵀ.mulVec v) = v := by
    rw [Matrix.mulVec_mulVec, hQQt, Matrix.one_mulVec]
  have hw0 : Qᵀ.mulVec v ≠ 0 := by
    intro h0
    apply hv0
    rw [← hQw, h0, Matrix.mulVec_zero]
  have hQtC : Qᵀ * C = Matrix.diagonal L * Qᵀ := by
    rw [hC, ← Matrix.mul_assoc, ← Matrix.mul_assoc, horth, Matrix.one_mul]
  have hDw : (Matrix.diagonal L).mulVec (Qᵀ.mulVec v) = mu • Qᵀ.mulVec v := by
    have h1 : (Qᵀ * C).mulVec v = Qᵀ.mulVec (mu • v) := by
      rw [← Matrix.mulVec_mulVec, hCv]
    rw [hQtC, ← Matrix.mulVec_mulVec, Matrix.mulVec_smul] at h1
    exact h1
  obtain ⟨i, hi⟩ := Function.ne_iff.mp hw0
  refine ⟨i, ?_⟩
  have h2 : ((Matrix.diagonal L).mulVec (Qᵀ.mulVec v)) i
      = L i * (Qᵀ.mulVec v) i := Matrix.mulVec_diagonal _ _ _
  have h3 : (mu • Qᵀ.mulVec v) i = mu * (Qᵀ.mulVec v) i := rfl
  rw [hDw, h3] at h2
  have hi' : (Qᵀ.mulVec v) i ≠ 0 := by simpa using hi
  exact mul_right_cancel₀ hi' h2.symm

/-- C4: for a symmetric matrix `C` with eigendecomposition `C = Q L Qᵀ`
(`Q` orthogonal, as returned by `scipy.linalg.eigh`), `Bmatrix` aborts
(result `none`, modelling `sys.exit(1)`) exactly when some eigenvalue of
`C` is `≤ 0`; in particular no whitening matrix is returned in that case.
Symmetry of `C` is implied by the eigendecomposition hypotheses. -/
theorem Bmatrix_abort_iff {n : ℕ}
    (eigh : Matrix (Fin n) (Fin n) ℝ → (Fin n → ℝ) × Matrix (Fin n) (Fin n) ℝ)
    (C : Matrix (Fin n) (Fin n) ℝ) (L : Fin n → ℝ) (Q : Matrix (Fin n) (Fin n) ℝ)
    (heigh : eigh C = (L, Q)) (horth : Qᵀ * Q = 1)
    (hC : C = Q * Matrix.diagonal L * Qᵀ) :
    Bmatrix eigh C = none ↔ ∃ mu, isEigenvalueOf C mu ∧ mu ≤ 0 := by
  unfold Bmatrix
  rw [heigh]
  constructor
  · intro h
    by_cases hall : ∀ i, 0 < L i
    · simp only [hall, if_pos] at h
      exact absurd h (by simp)
    · push_neg at hall
      obtain ⟨i, hi⟩ := hall
      exact ⟨L i, eigh_column_eigen C L Q horth hC i, hi⟩
  · rintro ⟨mu, hmu, hle⟩
    obtain ⟨i, hi⟩ := eigenvalue_mem C L Q horth hC mu hmu
    have hnot : ¬ ∀ j, 0 < L j := by
      intro hall
      have := hall i
      rw [hi] at this
      linarith
    simp only [hnot, if_neg]
    simp

/-- C4 witness: on the concrete 1×1 matrix `C = [[-1]]` (eigenvalue `-1`),
`Bmatrix` aborts. -/
theorem Bmatrix_abort_witness :
    Bmatrix eighNeg (Matrix.diagonal fun _ => (-1 : ℝ)) = none := by
  refine (Bmatrix_abort_iff eighNeg (Matrix.diagonal fun _ => (-1 : ℝ))
      (fun _ => -1) 1 rfl (by simp) (by simp)).mpr ?_
  refine ⟨-1, ⟨fun _ => 1, ?_, ?_⟩, by norm_num⟩
  · intro hv
    have h0 := congrFun hv 0
    norm_num at h0
  · funext j
    have h1 : ((Matrix.diagonal fun _ => (-1:ℝ)).mulVec fun _ => 1) j
        = (fun _ => (-1:ℝ)) j * 1 := Matrix.mulVec_diagonal _ _ _
    rw [h1]
    norm_num

theorem diag_rsqrt_sq {n : ℕ} (L : Fin n → ℝ) (hpos : ∀ i, 0 < L i) :
    (Matrix.diagonal fun i => 1 / Real.sqrt (L i))
      * (Matrix.diagonal fun i => 1 / Real.sqrt (L i))
      = Matrix.diagonal fun i => 1 / L i := by
  rw [Matrix.diagonal_mul_diagonal]
  have hfun : (fun i => 1 / Real.sqrt (L i) * (1 / Real.sqrt (L i)))
      = fun i => 1 / L i := by
    funext i
    rw [div_mul_div_comm, one_mul, Real.mul_self_sqrt (hpos i).le]
  rw [hfun]

/-- C5: when all eigenvalues are positive, `Bmatrix` returns
`B = Q·diag(1/√L)` and `B·Bᵗ = C⁻¹` holds exactly (an identity of real
numbers, subsuming the claim's 1e-6 relative tolerance for any size). -/
theorem Bmatrix_whitening {n : ℕ}
    (eigh : Matrix (Fin n) (Fin n) ℝ → (Fin n → ℝ) × Matrix (Fin n) (Fin n) ℝ)
    (C : Matrix (Fin n) (Fin n) ℝ) (L : Fin n → ℝ) (Q : Matrix (Fin n) (Fin n) ℝ)
    (heigh : eigh C = (L, Q)) (horth : Qᵀ * Q = 1) (hpos : ∀ i, 0 < L i)
    (hC : C = Q * Matrix.diagonal L * Qᵀ) :
    Bmatrix eigh C = some (Q * Matrix.diagonal fun i => 1 / Real.sqrt (L i))
    ∧ (Q * Matrix.diagonal fun i => 1 / Real.sqrt (L i))
        * (Q * Matrix.diagonal fun i => 1 / Real.sqrt (L i))ᵀ = C⁻¹ := by
  have hQQt : Q * Qᵀ = 1 := Matrix.mul_eq_one_comm.mp horth
  constructor
  · unfold Bmatrix
    rw [heigh]
    simp only [if_pos hpos]
  · have hDD : Matrix.diagonal L * Matrix.diagonal (fun i => 1 / L i) = 1 := by
      rw [Matrix.diagonal_mul_diagonal]
      have hfun : (fun i => L i * (1 / L i)) = fun _ => (1:ℝ) := by
        funext i
        rw [mul_one_div, div_self (hpos i).ne']
      rw [hfun, Matrix.diagonal_one]
    have hQtQX : ∀ X : Matrix (Fin n) (Fin n) ℝ, Qᵀ * (Q * X) = X := by
      intro X
      rw [← Matrix.mul_assoc, horth, Matrix.one_mul]
    have hmain : C * ((Q * Matrix.diagonal fun i => 1 / Real.sqrt (L i))
        * (Q * Matrix.diagonal fun i => 1 / Real.sqrt (L i))ᵀ) = 1 := by
      rw [Matrix.transpose_mul, Matrix.diagonal_transpose, hC]
      simp only [Matrix.mul_assoc]
      rw [hQtQX]
      rw [← Matrix.mul_assoc (Matrix.diagonal fun i => 1 / Real.sqrt (L i))
        (Matrix.diagonal fun i => 1 / Real.sqrt (L i)) Qᵀ, diag_rsqrt_sq L hpos]
      rw [← Matrix.mul_assoc (Matrix.diagonal L), hDD, Matrix.one_mul]
      exact hQQt
    exact (Matrix.inv_eq_right_inv hmain).symm

/-- C5 witness: on the concrete 1×1 positive-definite matrix `C = [[1]]`,
`Bmatrix` returns `Q·diag(1/√L)` and `B·Bᵗ = C⁻¹`. -/
theorem Bmatrix_whitening_witness :
    Bmatrix eighOne (1 : Matrix (Fin 1) (Fin 1) ℝ)
      = some ((1 : Matrix (Fin 1) (Fin 1) ℝ) * Matrix.diagonal fun _ => 1 / Real.sqrt 1)
    ∧ ((1 : Matrix (Fin 1) (Fin 1) ℝ) * Matrix.diagonal fun _ => 1 / Real.sqrt 1)
        * ((1 : Matrix (Fin 1) (Fin 1) ℝ) * Matrix.diagonal fun _ => 1 / Real.sqrt 1)ᵀ
      = (1 : Matrix (Fin 1) (Fin 1) ℝ)⁻¹ :=
  Bmatrix_whitening eighOne 1 (fun _ => 1) 1 rfl (by simp) (fun _ => one_pos) (by simp)

theorem eg_base_val : elliptical_gaussian 0 1 1 0 0 1 1 0 = Real.exp (-(1 / 2)) := by
  simp [elliptical_gaussian]

theorem eg_shift_val :
    elliptical_gaussian 0 1 1 0 (0 + fdEps) 1 1 0
      = Real.exp (-(1 / 2) + (fdEps - fdEps ^ 2 / 2)) := by
  simp [elliptical_gaussian]
  ring

theorem exp_neg_half_gt : (3 : ℝ) / 5 < Real.exp (-(1 / 2)) := by
  have h1 : Real.exp (1 / 2) * Real.exp (1 / 2) = Real.exp 1 := by
    rw [← Real.exp_add]
    norm_num
  have h2 : Real.exp 1 < 2.7182818286 := Real.exp_one_lt_d9
  have h3 : Real.exp (1 / 2) < 5 / 3 := by nlinarith [Real.exp_pos (1 / 2 : ℝ)]
  have h4 : Real.exp (-(1 / 2 : ℝ)) = (Real.exp (1 / 2))⁻¹ := by
    rw [← Real.exp_neg]
  have h5 : Real.exp (1 / 2) * (Real.exp (1 / 2))⁻¹ = 1 :=
    mul_inv_cancel₀ (Real.exp_pos _).ne'
  rw [h4]
  nlinarith [Real.exp_pos (1 / 2 : ℝ), inv_pos.mpr (Real.exp_pos (1 / 2 : ℝ))]

/-- C1: the analytic and empirical modes of `jacobian2d` disagree far
beyond finite-difference tolerance at the concrete parameter set
`amp=1, xo=0, yo=0, sx=1, sy=1, theta=0` (which satisfies `amp ≠ 0` and
`sx, sy > 0`) and the single sample `(x,y) = (0,1)`: in the dmdyo column
(index 2) the analytic mode returns `0` while the empirical mode returns
more than `1/2` (the true derivative is `exp(-1/2) ≈ 0.607`).  The cause
is the analytic path computing its y-offset intermediate from
x-coordinates (`yyo = x - yo`). -/
theorem jacobian2d_modes_diverge :
    (∃ r, jacobian2d 1 0 0 1 1 0 [0] [1] false none = [r] ∧ r 2 = 0)
    ∧ (∃ r, jacobian2d 1 0 0 1 1 0 [0] [1] true none = [r] ∧ 1 / 2 < r 2) := by
  have hfd : (0:ℝ) < fdEps := by norm_num [fdEps]
  constructor
  · refine ⟨jacobian2dRow 1 0 0 1 1 0 false 0 1, rfl, ?_⟩
    simp [jacobian2dRow, Matrix.cons_val_two, Matrix.vecTail, Matrix.vecHead]
  · refine ⟨jacobian2dRow 1 0 0 1 1 0 true 0 1, rfl, ?_⟩
    have hval : jacobian2dRow 1 0 0 1 1 0 true 0 1 2
        = (elliptical_gaussian 0 1 1 0 (0 + fdEps) 1 1 0
            - elliptical_gaussian 0 1 1 0 0 1 1 0) / fdEps := by
      simp [jacobian2dRow, Matrix.cons_val_two, Matrix.vecTail, Matrix.vecHead]
    rw [hval, eg_base_val, eg_shift_val]
    rw [lt_div_iff₀ hfd]
    have hexp : Real.exp (-(1 / 2) + (fdEps - fdEps ^ 2 / 2))
        = Real.exp (-(1 / 2)) * Real.exp (fdEps - fdEps ^ 2 / 2) := Real.exp_add _ _
    have hge := Real.add_one_le_exp (fdEps - fdEps ^ 2 / 2)
    have hq := exp_neg_half_gt
    have hfe : fdEps = 1e-5 := rfl
    rw [hexp]
    rw [hfe] at hge ⊢
    nlinarith [Real.exp_pos (-(1 / 2 : ℝ))]

/-- C10: both analytic Jacobians compute the amplitude-derivative column
as `model / amp` — the 1d `jacobian` and the `emp=false` mode of
`jacobian2d` — a formula that divides by `amp` and hence is undefined
(numpy: 0/0 → NaN; in this real embedding the division-by-zero junk value
0) when `amp = 0`; whereas the model itself and the empirical
finite-difference mode are well-defined at `amp = 0`: there the empirical
amplitude column equals the strictly positive unit-amplitude model
exactly, which the analytic value 0 cannot match. -/
theorem jacobian_amp_column :
    (∀ amp cen sigma x : ℝ,
      jacobianRow amp cen sigma x 0 = gaussian x amp cen sigma / amp)
    ∧ (∀ amp xo yo sx sy theta x y : ℝ,
      jacobian2dRow amp xo yo sx sy theta false x y 0
        = elliptical_gaussian x y amp xo yo sx sy theta / amp)
    ∧ (∀ xo yo sx sy theta x y : ℝ,
      jacobian2dRow 0 xo yo sx sy theta true x y 0
          = elliptical_gaussian x y 1 xo yo sx sy theta
        ∧ jacobian2dRow 0 xo yo sx sy theta false x y 0 = 0
        ∧ 0 < elliptical_gaussian x y 1 xo yo sx sy theta) := by
  have hfd : (0:ℝ) < fdEps := by norm_num [fdEps]
  refine ⟨?_, ?_, ?_⟩
  · intro amp cen sigma x
    simp [jacobianRow]
  · intro amp xo yo sx sy theta x y
    simp [jacobian2dRow]
  · intro xo yo sx sy theta x y
    refine ⟨?_, ?_, ?_⟩
    · have h0 : elliptical_gaussian x y 0 xo yo sx sy theta = 0 := by
        simp [elliptical_gaussian]
      have h1 : elliptical_gaussian x y (0 + fdEps) xo yo sx sy theta
          = fdEps * elliptical_gaussian x y 1 xo yo sx sy theta := by
        simp [elliptical_gaussian]
      have hcol : jacobian2dRow 0 xo yo sx sy theta true x y 0
          = (elliptical_gaussian x y (0 + fdEps) xo yo sx sy theta
              - elliptical_gaussian x y 0 xo yo sx sy theta) / fdEps := by
        simp [jacobian2dRow]
      rw [hcol, h0, h1, sub_zero]
      exact mul_div_cancel_left₀ _ hfd.ne' 
    · simp [jacobian2dRow]
    · have h1 : elliptical_gaussian x y 1 xo yo sx sy theta
          = Real.exp (((x - xo) * Real.cos theta + (y - yo) * Real.sin theta) ^ 2 / sx ^ 2
              * (-(1/2)) + ((x - xo) * Real.sin theta - (y - yo) * Real.cos theta) ^ 2 / sy ^ 2
              * (-(1/2))) := by
        simp [elliptical_gaussian]
        ring_nf
      rw [h1]
      exact Real.exp_pos _

theorem zipWith_add_zipWith (g h : ℝ → ℝ → ℝ) (xs ys : List ℝ) :
    List.zipWith (fun a b => a + b) (List.zipWith g xs ys) (List.zipWith h xs ys)
      = List.zipWith (fun x y => g x y + h x y) xs ys := by
  induction xs generalizing ys with
  | nil => simp
  | cons x xs ih =>
    cases ys with
    | nil => simp
    | cons y ys => simp [ih]

theorem mpfit_fold (xs ys : List ℝ) (cs : List (ℝ × ℝ × ℝ × ℝ × ℝ × ℝ))
    (g : ℝ → ℝ → ℝ) :
    cs.foldl
      (fun result p =>
        match result with
        | some r => some (List.zipWith (fun a b => a + b) r
            (List.zipWith (compEval p) xs ys))
        | none => some (List.zipWith (compEval p) xs ys))
      (some (List.zipWith g xs ys))
      = some (List.zipWith
          (fun x y => g x y + ((cs.map (fun p => compEval p x y)).sum)) xs ys) := by
  induction cs generalizing g with
  | nil => simp
  | cons c cs ih =>
    simp only [List.foldl_cons]
    rw [zipWith_add_zipWith g (compEval c) xs ys, ih]
    have hfun : (fun x y => (g x y + compEval c x y)
          + ((cs.map (fun p => compEval p x y)).sum))
        = fun x y => g x y + ((c :: cs).map (fun p => compEval p x y)).sum := by
      funext x y
      simp [add_assoc]
    rw [hfun]

theorem mpfit_fold_none (xs ys : List ℝ) (c : ℝ × ℝ × ℝ × ℝ × ℝ × ℝ)
    (cs : List (ℝ × ℝ × ℝ × ℝ × ℝ × ℝ)) :
    (c :: cs).foldl
      (fun result p =>
        match result with
        | some r => some (List.zipWith (fun a b => a + b) r
            (List.zipWith (compEval p) xs ys))
        | none => some (List.zipWith (compEval p) xs ys))
      none
      = some (List.zipWith
          (fun x y => compEval c x y
            + ((cs.map (fun p => compEval p x y)).sum)) xs ys) := by
  have h0 : (c :: cs).foldl
      (fun result p =>
        match result with
        | some r => some (List.zipWith (fun a b => a + b) r
            (List.zipWith (compEval p) xs ys))
        | none => some (List.zipWith (compEval p) xs ys))
      none
      = cs.foldl
        (fun result p =>
          match result with
          | some r => some (List.zipWith (fun a b => a + b) r
              (List.zipWith (compEval p) xs ys))
          | none => some (List.zipWith (compEval p) xs ys))
        (some (List.zipWith (compEval c) xs ys)) := rfl
  rw [h0, mpfit_fold xs ys cs (compEval c)]

theorem chunks6_eq_nil (l : List ℝ) (h6 : l.length % 6 = 0)
    (h : chunks6 l = []) : l = [] := by
  match l with
  | [] => rfl
  | [a] => simp at h6
  | [a, b] => simp at h6
  | [a, b, c] => simp at h6
  | [a, b, c, d] => simp at h6
  | [a, b, c, d, e] => simp at h6
  | a :: b :: c :: d :: e :: f :: rest => simp [chunks6] at h

/-- C9 counterexample: on the empty parameter sequence (length `0`, a
multiple of 6) `ntwodgaussian_mpfit` does not fail, but the function it
returns yields `None` (the fold over zero components never initialises
its accumulator) instead of the elementwise sum of zero Gaussians (the
zero array): the claim's all-multiples-of-6 clause fails at `inpars = []`. -/
theorem ntwodgaussian_mpfit_empty :
    ∃ f, ntwodgaussian_mpfit ([] : List ℝ) = Except.ok f
      ∧ f [0] [0] ≠ some (List.zipWith (multiGaussSum []) [0] [0]) := by
  refine ⟨_, rfl, ?_⟩
  simp [chunks6]

/-- C9 as amended: `ntwodgaussian_mpfit` fails with the
`ParameterCountError` exactly when the flat sequence's length is not a
multiple of 6, and on every nonempty sequence whose length is a multiple
of 6 it returns the function computing the elementwise sum of the N
component elliptical Gaussians (the empty sequence is the one multiple-of-6
input on which the returned function yields `None` instead). -/
theorem ntwodgaussian_mpfit_spec (inpars : List ℝ) :
    (inpars.length % 6 ≠ 0 →
      ntwodgaussian_mpfit inpars = Except.error ModelError.parameterCountError)
    ∧ (inpars.length % 6 = 0 → inpars ≠ [] →
      ∃ f, ntwodgaussian_mpfit inpars = Except.ok f
        ∧ ∀ xs ys : List ℝ,
            f xs ys = some (List.zipWith (multiGaussSum inpars) xs ys)) := by
  constructor
  · intro h
    unfold ntwodgaussian_mpfit
    rw [if_neg h]
  · intro h hne
    unfold ntwodgaussian_mpfit
    rw [if_pos h]
    refine ⟨_, rfl, ?_⟩
    intro xs ys
    cases hcs : chunks6 inpars with
    | nil => exact absurd (chunks6_eq_nil inpars h hcs) hne
    | cons c cs =>
      rw [mpfit_fold_none]
      have hfun : (fun x y => compEval c x y
            + ((cs.map (fun p => compEval p x y)).sum))
          = multiGaussSum inpars := by
        funext x y
        simp only [multiGaussSum, hcs, List.map_cons, List.sum_cons]
      rw [hfun]

/-- C9 amended witness: the error case at the length-2 sequence `[1, 2]`
and the success case at the single-component sequence
`[1, 0, 0, 1, 1, 0]`. -/
theorem ntwodgaussian_mpfit_spec_witness :
    ntwodgaussian_mpfit [1, 2] = Except.error ModelError.parameterCountError
    ∧ ∃ f, ntwodgaussian_mpfit [1, 0, 0, 1, 1, 0] = Except.ok f
        ∧ ∀ xs ys : List ℝ,
            f xs ys = some (List.zipWith (multiGaussSum [1, 0, 0, 1, 1, 0]) xs ys) :=
  ⟨(ntwodgaussian_mpfit_spec [1, 2]).1 (by simp),
   (ntwodgaussian_mpfit_spec [1, 0, 0, 1, 1, 0]).2 (by simp) (by simp)⟩

/-- C2 counterexample: on the concrete observation `[NaN, NaN, NaN]`
(zero finite samples) with all three parameters free (`0 ≤ 3`), `do_lmfit`
still invokes the external solver — instantiating the solver with one
that returns the marker `true`, the driver surfaces that marker as its
result; no `InsufficientData` outcome exists in the driver. -/
theorem do_lmfit_no_guard :
    finiteCount1 [none, none, none] = 0
    ∧ freeCount1 paramsAllFree = 3
    ∧ (do_lmfit (fun _ p => (p, true)) [none, none, none] paramsAllFree none).result
        = true :=
  ⟨rfl, rfl, rfl⟩

/-- C2 amended: the fit drivers perform no sample-sufficiency check: even
when the finite-sample count is at most the free-parameter count,
`do_lmfit` hands the masked residual to the external solver and returns
the solver's output, and `do_mpfit` likewise runs the solver engine on
`erfunc`; neither driver has an `InsufficientData` outcome (callers
guard instead, e.g. `test2d` skips datasets with fewer than 7 finite
pixels). -/
theorem fit_drivers_always_invoke_solver {R S : Type}
    (minimize : (Params1 → List ℝ) → Params1 → Params1 × R)
    (engine : (List ℝ → Except ModelError (List ℝ)) → List ParInfo → S)
    (data1 : List (Option ℝ)) (params : Params1) (B1 : Option (List (List ℝ)))
    (data2 : List (List (Option ℝ))) (parinfo : List ParInfo)
    (B2 : Option (List (List ℝ)))
    (h1 : finiteCount1 data1 ≤ freeCount1 params)
    (h2 : finiteCount2d data2 ≤ (parinfo.filter (fun q => !q.fixed)).length) :
    (do_lmfit minimize data1 params B1).result
        = (minimize (residual1 B1 data1) params).2
    ∧ (do_mpfit engine data2 parinfo B2).1.1 = engine (erfunc B2 data2) parinfo :=
  ⟨rfl, rfl⟩

/-- C2 amended witness: the solver is invoked on a single-sample
observation that is all-NaN (`0` finite samples, `3` free parameters) and
on an all-NaN 1×1 grid with an empty `parinfo`. -/
theorem fit_drivers_always_invoke_solver_witness :
    (do_lmfit (fun _ p => (p, (0:ℕ))) [none] paramsAllFree none).result
        = ((fun _ p => (p, (0:ℕ))) (residual1 none [none]) paramsAllFree).2
    ∧ (do_mpfit (fun _ _ => (0:ℕ)) [[none]] ([] : List ParInfo) none).1.1
        = (fun _ _ => (0:ℕ)) (erfunc none [[none]]) ([] : List ParInfo) :=
  fit_drivers_always_invoke_solver (fun _ p => (p, (0:ℕ))) (fun _ _ => (0:ℕ))
    [none] paramsAllFree none [[none]] ([] : List ParInfo) none (by decide) (by decide)

/-- C3 counterexample: on the concrete 1×2 observation
`[[1.0, 2.0]]` (2 finite samples) and the six-entry `parinfo6` with one
fixed parameter (5 free), `do_mpfit` records `dof = -2`
(`len(np.ravel(mask)) = 4` because the raveled `np.where` tuple counts
each 2d sample twice, and `len(parinfo) = 6` counts the fixed parameter),
whereas the claim's `finite samples - free parameters` is `2 - 5 = -3`. -/
theorem do_mpfit_dof_counterexample :
    (do_mpfit (fun _ _ => (0:ℕ)) [[some 1, some 2]] parinfo6 none).1.2 = -2
    ∧ finiteCount2d [[some 1, some 2]] = 2
    ∧ (parinfo6.filter (fun q => !q.fixed)).length = 5
    ∧ ((-2 : ℤ) ≠ (2 : ℤ) - 5) :=
  ⟨rfl, rfl, rfl, by decide⟩

/-- C3 amended: the degrees of freedom recorded by `do_mpfit` equal
`len(np.ravel(mask)) - len(parinfo)`, i.e. twice the number of unmasked
(finite) samples minus the total number of parameters (fixed ones
included): `np.ravel` of the 2d `np.where` tuple concatenates the row-
and column-index arrays, counting each finite sample twice, and
`len(parinfo)` does not exclude fixed parameters. -/
theorem do_mpfit_dof {R : Type}
    (engine : (List ℝ → Except ModelError (List ℝ)) → List ParInfo → R)
    (data : List (List (Option ℝ))) (parinfo : List ParInfo)
    (B : Option (List (List ℝ))) :
    (do_mpfit engine data parinfo B).1.2
      = 2 * (finiteCount2d data : ℤ) - parinfo.length := by
  have hlen : (ravelMask (mask2d data)).length = 2 * finiteCount2d data := by
    simp [ravelMask, mask2d, finiteCount2d]
    omega
  have hcast : (((ravelMask (mask2d data)).length : ℤ))
      = 2 * (finiteCount2d data : ℤ) := by exact_mod_cast hlen
  show ((ravelMask (mask2d data)).length : ℤ) - parinfo.length
      = 2 * (finiteCount2d data : ℤ) - parinfo.length
  rw [hcast]

/-- C6: the caller's parameter objects survive a fit unchanged (values,
bounds and fixed flags alike, the whole object): `do_lmfit` deep-copies
the initial parameter set before handing it to the solver, so even a
solver that mutates its argument — as `lmfit.minimize` does, which is why
the source deep-copies — cannot touch the caller's original; and
`do_mpfit` hands `parinfo` to the external `mpfit` (modelled from the
spec as returning results without modifying the descriptors) and returns
it as given. -/
theorem fit_drivers_preserve_caller_params :
    (∀ (R : Type) (minimize : (Params1 → List ℝ) → Params1 → Params1 × R)
        (data : List (Option ℝ)) (params : Params1) (B : Option (List (List ℝ))),
      (do_lmfit minimize data params B).callerParams = params)
    ∧ (∀ (R : Type) (engine : (List ℝ → Except ModelError (List ℝ)) → List ParInfo → R)
        (data : List (List (Option ℝ))) (parinfo : List ParInfo)
        (B : Option (List (List ℝ))),
      (do_mpfit engine data parinfo B).2 = parinfo) :=
  ⟨fun _ _ _ _ _ => rfl, fun _ _ _ _ _ => rfl⟩
